import Mathlib

/-
Verification of the Turing-machine palindrome checker (`src/Turing.py`).

The file embeds the execution core of the `TuringMachine` class:
the transition table, the sparse tape (a Python dict from integer
positions to one-character symbols, embedded as an association list),
`initialize`, `step`, the `run` loop, and `get_tape_content`.
Display, timing and logging-to-file concerns (`start_time`,
`animation_running`, colorama output) are outside the embedding; the
`execution_log` list of per-step records is kept because `step` mutates it.
-/

/-- The states of the machine.  The Python code uses the strings
`"q0" … "qn2", "q_halt"`; here they are an enumeration with the same names. -/
inductive MState where
  | q0 | q1 | q2 | q3 | q4 | q5
  | q_yes | qy1 | qy2 | qy3
  | q_no | qn1 | qn2
  | q_halt
deriving DecidableEq

/-- The Python string spelling of each state, used in the error message of `step`. -/
def stateName : MState → String
  | .q0 => "q0"
  | .q1 => "q1"
  | .q2 => "q2"
  | .q3 => "q3"
  | .q4 => "q4"
  | .q5 => "q5"
  | .q_yes => "q_yes"
  | .qy1 => "qy1"
  | .qy2 => "qy2"
  | .qy3 => "qy3"
  | .q_no => "q_no"
  | .qn1 => "qn1"
  | .qn2 => "qn2"
  | .q_halt => "q_halt"

/-- `self.blank_symbol = 'B'` -/
def blank_symbol : Char := 'B'

/-- `self.halt_state = 'q_halt'` -/
def halt_state : MState := MState.q_halt

/-- One entry of the transition table:
`{'newState': …, 'write': …, 'move': …}`. -/
structure Rule where
  newState : MState
  write : Char
  move : Char
deriving DecidableEq

/-- The fixed transition table `self.transitions` of `TuringMachine.__init__`.
The two nested dict lookups (state, then symbol) are merged into one function;
a missing entry on either level is `none`. -/
def transitions : MState → Char → Option Rule
  | .q0, 'a' => some ⟨.q1, 'B', 'R'⟩
  | .q0, 'b' => some ⟨.q2, 'B', 'R'⟩
  | .q0, 'B' => some ⟨.q_yes, 'B', 'L'⟩
  | .q1, 'a' => some ⟨.q1, 'a', 'R'⟩
  | .q1, 'b' => some ⟨.q1, 'b', 'R'⟩
  | .q1, 'B' => some ⟨.q3, 'B', 'L'⟩
  | .q2, 'a' => some ⟨.q2, 'a', 'R'⟩
  | .q2, 'b' => some ⟨.q2, 'b', 'R'⟩
  | .q2, 'B' => some ⟨.q4, 'B', 'L'⟩
  | .q3, 'a' => some ⟨.q5, 'B', 'L'⟩
  | .q3, 'b' => some ⟨.q_no, 'b', 'L'⟩
  | .q3, 'B' => some ⟨.q_yes, 'B', 'L'⟩
  | .q4, 'b' => some ⟨.q5, 'B', 'L'⟩
  | .q4, 'a' => some ⟨.q_no, 'a', 'L'⟩
  | .q4, 'B' => some ⟨.q_yes, 'B', 'L'⟩
  | .q5, 'a' => some ⟨.q5, 'a', 'L'⟩
  | .q5, 'b' => some ⟨.q5, 'b', 'L'⟩
  | .q5, 'B' => some ⟨.q0, 'B', 'R'⟩
  | .q_yes, 'a' => some ⟨.q_yes, 'B', 'L'⟩
  | .q_yes, 'b' => some ⟨.q_yes, 'B', 'L'⟩
  | .q_yes, 'B' => some ⟨.qy1, 'B', 'R'⟩
  | .qy1, 'B' => some ⟨.qy2, 'Y', 'R'⟩
  | .qy2, 'B' => some ⟨.qy3, 'E', 'R'⟩
  | .qy3, 'B' => some ⟨.q_halt, 'S', 'S'⟩
  | .q_no, 'a' => some ⟨.q_no, 'B', 'L'⟩
  | .q_no, 'b' => some ⟨.q_no, 'B', 'L'⟩
  | .q_no, 'B' => some ⟨.qn1, 'B', 'R'⟩
  | .qn1, 'B' => some ⟨.qn2, 'N', 'R'⟩
  | .qn2, 'B' => some ⟨.q_halt, 'O', 'S'⟩
  | _, _ => none

/-- The tape `self.tape`: a Python dict from integer position to symbol,
embedded as an association list with distinct keys in insertion order. -/
abbrev Tape := List (Int × Char)

/-- `self.tape.get(position, self.blank_symbol)`. -/
def tape_get : Tape → Int → Char
  | [], _ => blank_symbol
  | kv :: rest, p => if kv.1 = p then kv.2 else tape_get rest p

/-- `self.tape[position] = symbol`: dict assignment, which overwrites the
entry if the key is present and otherwise appends the new key. -/
def tape_set : Tape → Int → Char → Tape
  | [], p, c => [(p, c)]
  | kv :: rest, p, c => if kv.1 = p then (p, c) :: rest else kv :: tape_set rest p c

/-- Removing a key from the dict (used to state the spec invariant that
writing the blank symbol is observationally the same as key absence). -/
def tape_eraseKey : Tape → Int → Tape
  | [], _ => []
  | kv :: rest, p => if kv.1 = p then tape_eraseKey rest p else kv :: tape_eraseKey rest p

/-- `TuringMachine.get_tape_content`:
`"".join(self.tape[key] for key in sorted(self.tape.keys()) if self.tape[key] != self.blank_symbol)`,
with the leading `if not self.tape: return ""` guard. -/
def get_tape_content (t : Tape) : String :=
  if t = [] then "" else
    String.mk ((List.insertionSort (· ≤ ·) (t.map Prod.fst)).filterMap
      (fun k => if tape_get t k ≠ blank_symbol then some (tape_get t k) else none))

/-- The value returned by `TuringMachine.step`
(the Python strings `'CONTINUE'`, `'HALT'`, `'ERROR'`). -/
inductive StepResult where
  | CONTINUE | HALT | ERROR
deriving DecidableEq

/-- One record of `self.execution_log` (the `step_info` dict built by `step`). -/
structure StepInfo where
  step : Nat
  state : MState
  position : Int
  read : Char
  write : Char
  move : Char
  new_state : MState
deriving DecidableEq

/-- The dynamic attributes of a `TuringMachine` object.
`start_time` (wall clock) and `animation_running` (display) are not embedded. -/
structure TuringMachine where
  tape : Tape
  head_position : Int
  current_state : MState
  step_count : Nat
  execution_log : List StepInfo
  original_input : List Char
  error_message : String

/-- A freshly constructed machine (`TuringMachine.__init__`, dynamic attributes). -/
def mkTuringMachine : TuringMachine :=
  { tape := [], head_position := 0, current_state := MState.q0, step_count := 0,
    execution_log := [], original_input := [], error_message := "" }

/-- `TuringMachine.initialize(input_string)`: validates that every character is
`a` or `b`; on failure returns `False` before touching any field; on success
resets the dynamic fields and builds the tape `{i: char for i, char in enumerate(input_string)}`. -/
def initMachine (m : TuringMachine) (input_string : List Char) : TuringMachine × Bool :=
  if input_string.all (fun c => c == 'a' || c == 'b') then
    ({ m with
        original_input := input_string,
        tape := input_string.enum.map (fun ic => ((ic.1 : Int), ic.2)),
        head_position := 0,
        current_state := MState.q0,
        step_count := 0,
        execution_log := [],
        error_message := "" }, true)
  else
    (m, false)

/-- `TuringMachine.step`. -/
def step (m : TuringMachine) : TuringMachine × StepResult :=
  if m.current_state = halt_state then (m, StepResult.HALT)
  else
    match transitions m.current_state (tape_get m.tape m.head_position) with
    | none =>
        ({ m with
            error_message := "No transition for state '" ++ stateName m.current_state ++
              "' and symbol '" ++ String.mk [tape_get m.tape m.head_position] ++ "'",
            current_state := halt_state },
          StepResult.ERROR)
    | some rule =>
        let next : TuringMachine :=
          { m with
              execution_log := m.execution_log ++
                [{ step := m.step_count, state := m.current_state,
                   position := m.head_position,
                   read := tape_get m.tape m.head_position,
                   write := rule.write, move := rule.move, new_state := rule.newState }],
              tape := tape_set m.tape m.head_position rule.write,
              head_position := m.head_position +
                (if rule.move = 'R' then 1 else if rule.move = 'L' then -1 else 0),
              current_state := rule.newState,
              step_count := m.step_count + 1 }
        (next, if next.current_state ≠ halt_state then StepResult.CONTINUE else StepResult.HALT)

/-- The `while True:` loop of `TuringMachine.run`, with explicit fuel:
repeatedly calls `step` until it returns something other than `CONTINUE`.
Exhausted fuel is reported as `CONTINUE` (the loop would still be running). -/
def runSteps : Nat → TuringMachine → TuringMachine × StepResult
  | 0, m => (m, StepResult.CONTINUE)
  | fuel + 1, m =>
    match step m with
    | (m2, StepResult.CONTINUE) => runSteps fuel m2
    | (m2, r) => (m2, r)

/-- Repeated invocation of `step`, keeping only the machine. -/
def stepIter : Nat → TuringMachine → TuringMachine
  | 0, m => m
  | k + 1, m => stepIter k (step m).1

/-- The verdict a caller derives from the final tape string. -/
inductive Verdict where
  | Yes | No | Malformed
deriving DecidableEq

/-- Modelled from the spec: the repository has no standalone decoding function
for the final tape string (its CLI checks substrings inline), and the spec
defines `decode_result(tape_string)` by suffix: ends in `"YES"` gives Yes,
ends in `"NO"` gives No, anything else Malformed. -/
def decode_result (s : String) : Verdict :=
  if s.endsWith "YES" then Verdict.Yes
  else if s.endsWith "NO" then Verdict.No
  else Verdict.Malformed

/-- The property of being one of the two input letters. -/
def isAB (c : Char) : Prop := c = 'a' ∨ c = 'b'

/-- Pointwise update of a function view of the tape. -/
def fupdate (f : Int → Char) (p : Int) (c : Char) : Int → Char :=
  fun q => if q = p then c else f q

/-- `Reaches m k m2`: starting from machine `m`, `k` calls to `step` all
return `CONTINUE` and leave the machine in state `m2`. -/
inductive Reaches : TuringMachine → Nat → TuringMachine → Prop where
  | refl (m : TuringMachine) : Reaches m 0 m
  | more {m m2 m3 : TuringMachine} {k : Nat} :
      step m = (m2, StepResult.CONTINUE) → Reaches m2 k m3 → Reaches m (k + 1) m3

/-- `TerminatesIn m k`: the run loop started at `m` makes exactly `k` calls to
`step`; the first `k - 1` return `CONTINUE` and the last returns `HALT` or `ERROR`. -/
def TerminatesIn (m : TuringMachine) (k : Nat) : Prop :=
  ∃ j m1 m2 r, k = j + 1 ∧ Reaches m j m1 ∧ step m1 = (m2, r) ∧ r ≠ StepResult.CONTINUE

/-- A machine configuration summary: control state, head position, the tape as
a total function, and the step counter. -/
structure Conf (m : TuringMachine) (st : MState) (p : Int) (f : Int → Char) (c : Nat) : Prop where
  state : m.current_state = st
  head : m.head_position = p
  tape : ∀ q : Int, tape_get m.tape q = f q
  count : m.step_count = c

/-- Recursive bound on the number of `step` calls a run of the machine makes
from an `n`-symbol remaining segment. -/
def stepBound : Nat → Nat
  | 0 => 5
  | 1 => 7
  | n + 2 => stepBound n + 2 * n + 5

/-- The machine initialized with `"ab"`. -/
def m_ab : TuringMachine := (initMachine mkTuringMachine ['a', 'b']).1

/-- The machine initialized with `"abab"`. -/
def m_abab : TuringMachine := (initMachine mkTuringMachine ['a', 'b', 'a', 'b']).1

/-- The machine initialized with `"abba"`. -/
def m_abba : TuringMachine := (initMachine mkTuringMachine ['a', 'b', 'b', 'a']).1

/-- The machine initialized with `"a"`. -/
def m_a : TuringMachine := (initMachine mkTuringMachine ['a']).1

/-- The machine after running input `"a"` to completion (a halted machine). -/
def m_halted : TuringMachine := (runSteps 7 m_a).1

/-- A machine about to read symbol `b` in state `qn1`, which has no transition. -/
def m_gap : TuringMachine :=
  { tape := [((0 : Int), 'b')], head_position := 0, current_state := MState.qn1,
    step_count := 3, execution_log := [], original_input := ['a', 'b'],
    error_message := "" }


/-! ### Tape lemmas -/

theorem tape_get_set (t : Tape) (p : Int) (c : Char) (q : Int) :
    tape_get (tape_set t p c) q = if q = p then c else tape_get t q := by
  induction t with
  | nil =>
    rcases eq_or_ne q p with h | h
    · subst h; simp [tape_set, tape_get]
    · have h2 : ¬ p = q := fun hpq => h hpq.symm
      simp [tape_set, tape_get, h, h2]
  | cons kv rest ih =>
    rcases eq_or_ne kv.1 p with h1 | h1
    · subst h1
      rcases eq_or_ne q kv.1 with h | h
      · subst h; simp [tape_set, tape_get]
      · have h2 : ¬ kv.1 = q := fun hpq => h hpq.symm
        simp [tape_set, tape_get, h, h2]
    · rcases eq_or_ne kv.1 q with h2 | h2
      · have h3 : q ≠ p := fun hqp => h1 (h2.trans hqp)
        simp [tape_set, tape_get, h1, h2, h3]
      · simp [tape_set, tape_get, h1, h2, ih]

theorem mem_keys_of_get_ne (t : Tape) (q : Int) (h : tape_get t q ≠ blank_symbol) :
    q ∈ t.map Prod.fst := by
  induction t with
  | nil => simp [tape_get] at h
  | cons kv rest ih =>
    rcases eq_or_ne kv.1 q with h1 | h1
    · simp [h1]
    · simp only [tape_get, if_neg h1] at h
      simp [ih h]

theorem mem_keys_tape_set (t : Tape) (p : Int) (c : Char) (q : Int) :
    q ∈ (tape_set t p c).map Prod.fst ↔ q ∈ t.map Prod.fst ∨ q = p := by
  induction t with
  | nil => simp [tape_set, eq_comm]
  | cons kv rest ih =>
    rcases eq_or_ne kv.1 p with h1 | h1
    · subst h1
      have hset : tape_set (kv :: rest) kv.1 c = (kv.1, c) :: rest := by
        simp [tape_set]
      rw [hset]
      simp only [List.map_cons, List.mem_cons]
      tauto
    · simp only [tape_set, if_neg h1, List.map_cons, List.mem_cons, ih]
      tauto

theorem keys_tape_set_nodup (t : Tape) (p : Int) (c : Char)
    (h : (t.map Prod.fst).Nodup) : ((tape_set t p c).map Prod.fst).Nodup := by
  induction t with
  | nil => simp [tape_set]
  | cons kv rest ih =>
    simp only [List.map_cons, List.nodup_cons] at h
    rcases eq_or_ne kv.1 p with h1 | h1
    · subst h1
      simpa [tape_set] using h
    · simp only [tape_set, if_neg h1, List.map_cons, List.nodup_cons, mem_keys_tape_set]
      refine ⟨?_, ih h.2⟩
      rintro (hmem | hmem)
      · exact h.1 hmem
      · exact h1 hmem

theorem tape_get_eraseKey (t : Tape) (p : Int) (q : Int) :
    tape_get (tape_eraseKey t p) q = if q = p then blank_symbol else tape_get t q := by
  induction t with
  | nil => simp [tape_eraseKey, tape_get]
  | cons kv rest ih =>
    rcases eq_or_ne kv.1 p with h1 | h1
    · subst h1
      rcases eq_or_ne q kv.1 with h | h
      · subst h; simp [tape_eraseKey, ih]
      · have h2 : ¬ kv.1 = q := fun hpq => h hpq.symm
        simp [tape_eraseKey, tape_get, ih, h, h2]
    · rcases eq_or_ne kv.1 q with h2 | h2
      · have h3 : ¬ q = p := fun hqp => h1 (h2.trans hqp)
        simp [tape_eraseKey, tape_get, h1, h2, h3]
      · simp [tape_eraseKey, tape_get, h1, h2, ih]

theorem keys_eraseKey_sublist (t : Tape) (p : Int) :
    ((tape_eraseKey t p).map Prod.fst).Sublist (t.map Prod.fst) := by
  induction t with
  | nil => simp [tape_eraseKey]
  | cons kv rest ih =>
    rcases eq_or_ne kv.1 p with h1 | h1
    · simp only [tape_eraseKey, if_pos h1, List.map_cons]
      exact ih.cons kv.1
    · simp only [tape_eraseKey, if_neg h1, List.map_cons]
      exact ih.cons₂ kv.1

/-! ### Single-step lemmas -/

theorem Conf.retape {m : TuringMachine} {st : MState} {p : Int} {f g : Int → Char} {c : Nat}
    (h : Conf m st p f c) (hfg : ∀ q, f q = g q) : Conf m st p g c :=
  ⟨h.state, h.head, fun q => (h.tape q).trans (hfg q), h.count⟩

theorem Conf.cast {m : TuringMachine} {st : MState} {p p2 : Int} {f : Int → Char} {c c2 : Nat}
    (h : Conf m st p f c) (hp : p = p2) (hc : c = c2) : Conf m st p2 f c2 :=
  hp ▸ hc ▸ h

theorem step_halted (m : TuringMachine) (h : m.current_state = halt_state) :
    step m = (m, StepResult.HALT) := by
  simp [step, h]

theorem step_rule_eq {m : TuringMachine} {st : MState} {p : Int} {f : Int → Char} {c : Nat}
    (hc : Conf m st p f c) (hne : st ≠ halt_state) {r : Rule}
    (hr : transitions st (f p) = some r) :
    step m = ({ tape := tape_set m.tape m.head_position r.write,
                head_position := m.head_position +
                  (if r.move = 'R' then 1 else if r.move = 'L' then -1 else 0),
                current_state := r.newState,
                step_count := m.step_count + 1,
                execution_log := m.execution_log ++
                  [{ step := m.step_count, state := st, position := m.head_position,
                     read := f p, write := r.write, move := r.move, new_state := r.newState }],
                original_input := m.original_input,
                error_message := m.error_message },
              if r.newState = halt_state then StepResult.HALT else StepResult.CONTINUE) := by
  have hread : tape_get m.tape m.head_position = f p := by
    rw [hc.head]; exact hc.tape p
  simp only [step]
  rw [hc.state, hread, hr, if_neg hne]
  by_cases hh : r.newState = halt_state <;> simp [hh]

theorem step_error_eq {m : TuringMachine} {st : MState} {p : Int} {f : Int → Char} {c : Nat}
    (hc : Conf m st p f c) (hne : st ≠ halt_state)
    (hr : transitions st (f p) = none) :
    step m = ({ tape := m.tape, head_position := m.head_position,
                current_state := halt_state, step_count := m.step_count,
                execution_log := m.execution_log, original_input := m.original_input,
                error_message := "No transition for state '" ++ stateName st ++
                  "' and symbol '" ++ String.mk [f p] ++ "'" },
              StepResult.ERROR) := by
  have hread : tape_get m.tape m.head_position = f p := by
    rw [hc.head]; exact hc.tape p
  simp only [step]
  rw [hc.state, hread, hr, if_neg hne]

theorem step_rule_continue {m : TuringMachine} {st : MState} {p : Int} {f : Int → Char} {c : Nat}
    (hc : Conf m st p f c) (hne : st ≠ halt_state) {r : Rule}
    (hr : transitions st (f p) = some r) (hnh : r.newState ≠ halt_state) :
    ∃ m2, step m = (m2, StepResult.CONTINUE) ∧
      Conf m2 r.newState
        (p + (if r.move = 'R' then 1 else if r.move = 'L' then -1 else 0))
        (fupdate f p r.write) (c + 1) := by
  have h := step_rule_eq hc hne hr
  rw [if_neg hnh] at h
  refine ⟨_, h, ?_, ?_, ?_, ?_⟩
  · rfl
  · show m.head_position + _ = p + _
    rw [hc.head]
  · intro q
    show tape_get (tape_set m.tape m.head_position r.write) q = _
    rw [hc.head, tape_get_set]
    by_cases hq : q = p <;> simp [fupdate, hq, hc.tape q]
  · show m.step_count + 1 = c + 1
    rw [hc.count]

theorem step_rule_halt {m : TuringMachine} {st : MState} {p : Int} {f : Int → Char} {c : Nat}
    (hc : Conf m st p f c) (hne : st ≠ halt_state) {r : Rule}
    (hr : transitions st (f p) = some r) (hnh : r.newState = halt_state) :
    ∃ m2, step m = (m2, StepResult.HALT) ∧
      Conf m2 r.newState
        (p + (if r.move = 'R' then 1 else if r.move = 'L' then -1 else 0))
        (fupdate f p r.write) (c + 1) := by
  have h := step_rule_eq hc hne hr
  rw [if_pos hnh] at h
  refine ⟨_, h, ?_, ?_, ?_, ?_⟩
  · rfl
  · show m.head_position + _ = p + _
    rw [hc.head]
  · intro q
    show tape_get (tape_set m.tape m.head_position r.write) q = _
    rw [hc.head, tape_get_set]
    by_cases hq : q = p <;> simp [fupdate, hq, hc.tape q]
  · show m.step_count + 1 = c + 1
    rw [hc.count]

/-! ### Reaches and termination lemmas -/

theorem Reaches.trans {m m2 m3 : TuringMachine} {j k : Nat}
    (h1 : Reaches m j m2) (h2 : Reaches m2 k m3) : Reaches m (j + k) m3 := by
  induction h1 with
  | refl m => simpa using h2
  | more hstep _ ih =>
    have := Reaches.more hstep (ih h2)
    simpa [Nat.succ_add] using this

theorem terminatesIn_of_error {m m2 : TuringMachine}
    (h : step m = (m2, StepResult.ERROR)) : TerminatesIn m 1 :=
  ⟨0, m, m2, StepResult.ERROR, rfl, Reaches.refl m, h, by simp⟩

theorem terminatesIn_of_halt {m m2 : TuringMachine}
    (h : step m = (m2, StepResult.HALT)) : TerminatesIn m 1 :=
  ⟨0, m, m2, StepResult.HALT, rfl, Reaches.refl m, h, by simp⟩

theorem terminatesIn_comp {m m2 : TuringMachine} {j k : Nat}
    (h1 : Reaches m j m2) (h2 : TerminatesIn m2 k) : TerminatesIn m (j + k) := by
  obtain ⟨i, m3, m4, r, hk, hre, hst, hr⟩ := h2
  exact ⟨j + i, m3, m4, r, by omega, h1.trans hre, hst, hr⟩

/-! ### runSteps lemmas -/

theorem runSteps_continue {m m2 : TuringMachine} {fuel : Nat}
    (h : step m = (m2, StepResult.CONTINUE)) :
    runSteps (fuel + 1) m = runSteps fuel m2 := by
  simp [runSteps, h]

theorem runSteps_stop {m m2 : TuringMachine} {r : StepResult} {fuel : Nat}
    (h : step m = (m2, r)) (hr : r ≠ StepResult.CONTINUE) :
    runSteps (fuel + 1) m = (m2, r) := by
  cases r with
  | CONTINUE => exact absurd rfl hr
  | HALT => simp [runSteps, h]
  | ERROR => simp [runSteps, h]

theorem runSteps_of_reaches {m m2 : TuringMachine} {j : Nat} (h : Reaches m j m2) :
    ∀ fuel, runSteps (j + fuel) m = runSteps fuel m2 := by
  induction h with
  | refl m => intro fuel; simp
  | more hstep _ ih =>
    intro fuel
    rw [Nat.add_right_comm, runSteps_continue hstep]
    exact ih fuel

theorem terminates_runSteps {m : TuringMachine} {k : Nat} (h : TerminatesIn m k) :
    ∀ fuel, k ≤ fuel → (runSteps fuel m).2 ≠ StepResult.CONTINUE := by
  obtain ⟨j, m1, m2, r, hk, hre, hst, hr⟩ := h
  intro fuel hf
  obtain ⟨e, rfl⟩ : ∃ e, fuel = j + (e + 1) := ⟨fuel - j - 1, by omega⟩
  rw [runSteps_of_reaches hre, runSteps_stop hst hr]
  exact hr

/-! ### Character disequality facts used to evaluate head moves -/

theorem char_LR : ('L' : Char) ≠ 'R' := by decide

theorem char_SR : ('S' : Char) ≠ 'R' := by decide

theorem char_SL : ('S' : Char) ≠ 'L' := by decide

theorem moveDelta_eq_L {s : MState} {w : Char} :
    (if (Rule.mk s w 'L').move = 'R' then (1 : Int)
     else if (Rule.mk s w 'L').move = 'L' then -1 else 0) = -1 := by
  rw [show (Rule.mk s w 'L').move = 'L' from rfl, if_neg char_LR, if_pos rfl]

theorem moveDelta_eq_R {s : MState} {w : Char} :
    (if (Rule.mk s w 'R').move = 'R' then (1 : Int)
     else if (Rule.mk s w 'R').move = 'L' then -1 else 0) = 1 := by
  rw [show (Rule.mk s w 'R').move = 'R' from rfl, if_pos rfl]

theorem moveDelta_eq_S {s : MState} {w : Char} :
    (if (Rule.mk s w 'S').move = 'R' then (1 : Int)
     else if (Rule.mk s w 'S').move = 'L' then -1 else 0) = 0 := by
  rw [show (Rule.mk s w 'S').move = 'S' from rfl, if_neg char_SR, if_neg char_SL]

/-! ### Phase lemmas: multi-step behavior of each scanning loop -/

theorem scan_right {st tgt : MState}
    (hst : (st = MState.q1 ∧ tgt = MState.q3) ∨ (st = MState.q2 ∧ tgt = MState.q4)) :
    ∀ (n : Nat) (m : TuringMachine) (p : Int) (f : Int → Char) (c : Nat),
      Conf m st p f c →
      (∀ i : Nat, i < n → isAB (f (p + i))) →
      f (p + n) = blank_symbol →
      ∃ m2, Reaches m (n + 1) m2 ∧ Conf m2 tgt (p + n - 1) f (c + (n + 1)) := by
  intro n
  induction n with
  | zero =>
    intro m p f c hc _ hB
    have hB2 : f p = blank_symbol := by simpa using hB
    have hne : st ≠ halt_state := by
      rcases hst with ⟨h1, _⟩ | ⟨h1, _⟩ <;> subst h1 <;> decide
    have hr : transitions st (f p) =
        some ⟨tgt, 'B', 'L'⟩ := by
      rw [hB2]
      rcases hst with ⟨h1, h2⟩ | ⟨h1, h2⟩ <;> subst h1 <;> subst h2 <;> rfl
    have hnh : (⟨tgt, 'B', 'L'⟩ : Rule).newState ≠ halt_state := by
      rcases hst with ⟨_, h2⟩ | ⟨_, h2⟩ <;> subst h2 <;> decide
    obtain ⟨m2, hstep, hconf⟩ := step_rule_continue hc hne hr hnh
    refine ⟨m2, Reaches.more hstep (Reaches.refl m2), ?_⟩
    refine (hconf.retape ?_).cast ?_ ?_
    · intro q
      by_cases hq : q = p <;> simp [fupdate, hq, hB2, blank_symbol]
    · rw [moveDelta_eq_L]
      omega
    · omega
  | succ n ih =>
    intro m p f c hc hab hB
    have hab0 : isAB (f p) := by simpa using hab 0 (by omega)
    have hne : st ≠ halt_state := by
      rcases hst with ⟨h1, _⟩ | ⟨h1, _⟩ <;> subst h1 <;> decide
    have step1 : ∃ m2, step m = (m2, StepResult.CONTINUE) ∧
        Conf m2 st (p + 1) f (c + 1) := by
      rcases hab0 with ha | hb
      · have hr : transitions st (f p) = some ⟨st, 'a', 'R'⟩ := by
          rw [ha]
          rcases hst with ⟨h1, _⟩ | ⟨h1, _⟩ <;> subst h1 <;> rfl
        have hnh : (⟨st, 'a', 'R'⟩ : Rule).newState ≠ halt_state := by
          rcases hst with ⟨h1, _⟩ | ⟨h1, _⟩ <;> subst h1 <;> decide
        obtain ⟨m2, hstep, hconf⟩ := step_rule_continue hc hne hr hnh
        refine ⟨m2, hstep, (hconf.cast (by simp) (by omega)).retape
          (fun q => by by_cases hq : q = p <;> simp [fupdate, hq, ha])⟩
      · have hr : transitions st (f p) = some ⟨st, 'b', 'R'⟩ := by
          rw [hb]
          rcases hst with ⟨h1, _⟩ | ⟨h1, _⟩ <;> subst h1 <;> rfl
        have hnh : (⟨st, 'b', 'R'⟩ : Rule).newState ≠ halt_state := by
          rcases hst with ⟨h1, _⟩ | ⟨h1, _⟩ <;> subst h1 <;> decide
        obtain ⟨m2, hstep, hconf⟩ := step_rule_continue hc hne hr hnh
        refine ⟨m2, hstep, (hconf.cast (by simp) (by omega)).retape
          (fun q => by by_cases hq : q = p <;> simp [fupdate, hq, hb])⟩
    obtain ⟨m2, hstep, hconf2⟩ := step1
    have hab2 : ∀ i : Nat, i < n → isAB (f ((p + 1) + i)) := by
      intro i hi
      have := hab (i + 1) (by omega)
      have harg : p + ((i : Int) + 1) = p + 1 + i := by omega
      simpa [harg] using this
    have hB2 : f ((p + 1) + n) = blank_symbol := by
      have harg : p + 1 + (n : Int) = p + ((n : Int) + 1) := by omega
      simpa [harg] using hB
    obtain ⟨m3, hre, hconf3⟩ := ih m2 (p + 1) f (c + 1) hconf2 hab2 hB2
    refine ⟨m3, Reaches.more hstep hre, hconf3.cast (by omega) (by omega)⟩

theorem q5_left :
    ∀ (n : Nat) (m : TuringMachine) (p : Int) (f : Int → Char) (c : Nat),
      Conf m MState.q5 p f c →
      (∀ i : Nat, i < n → isAB (f (p - i))) →
      f (p - n) = blank_symbol →
      ∃ m2, Reaches m (n + 1) m2 ∧ Conf m2 MState.q0 (p - n + 1) f (c + (n + 1)) := by
  intro n
  induction n with
  | zero =>
    intro m p f c hc _ hB
    have hB2 : f p = blank_symbol := by simpa using hB
    have hr : transitions MState.q5 (f p) = some ⟨MState.q0, 'B', 'R'⟩ := by
      rw [hB2]; rfl
    obtain ⟨m2, hstep, hconf⟩ := step_rule_continue hc (by decide) hr (by decide)
    refine ⟨m2, Reaches.more hstep (Reaches.refl m2), ?_⟩
    refine (hconf.retape ?_).cast ?_ ?_
    · intro q
      by_cases hq : q = p <;> simp [fupdate, hq, hB2, blank_symbol]
    · rw [moveDelta_eq_R]
      omega
    · omega
  | succ n ih =>
    intro m p f c hc hab hB
    have hab0 : isAB (f p) := by simpa using hab 0 (by omega)
    have step1 : ∃ m2, step m = (m2, StepResult.CONTINUE) ∧
        Conf m2 MState.q5 (p - 1) f (c + 1) := by
      rcases hab0 with ha | hb
      · have hr : transitions MState.q5 (f p) = some ⟨MState.q5, 'a', 'L'⟩ := by
          rw [ha]; rfl
        obtain ⟨m2, hstep, hconf⟩ := step_rule_continue hc (by decide) hr (by decide)
        refine ⟨m2, hstep, (hconf.retape ?_).cast ?_ ?_⟩
        · intro q
          by_cases hq : q = p <;> simp [fupdate, hq, ha]
        · rw [moveDelta_eq_L]; omega
        · omega
      · have hr : transitions MState.q5 (f p) = some ⟨MState.q5, 'b', 'L'⟩ := by
          rw [hb]; rfl
        obtain ⟨m2, hstep, hconf⟩ := step_rule_continue hc (by decide) hr (by decide)
        refine ⟨m2, hstep, (hconf.retape ?_).cast ?_ ?_⟩
        · intro q
          by_cases hq : q = p <;> simp [fupdate, hq, hb]
        · rw [moveDelta_eq_L]; omega
        · omega
    obtain ⟨m2, hstep, hconf2⟩ := step1
    have hab2 : ∀ i : Nat, i < n → isAB (f ((p - 1) - i)) := by
      intro i hi
      have := hab (i + 1) (by omega)
      have harg : p - ((i : Int) + 1) = p - 1 - i := by omega
      simpa [harg] using this
    have hB2 : f ((p - 1) - n) = blank_symbol := by
      have harg : p - 1 - (n : Int) = p - ((n : Int) + 1) := by omega
      simpa [harg] using hB
    obtain ⟨m3, hre, hconf3⟩ := ih m2 (p - 1) f (c + 1) hconf2 hab2 hB2
    refine ⟨m3, Reaches.more hstep hre, hconf3.cast (by omega) (by omega)⟩

theorem sweep_left {st tgt : MState}
    (hst : (st = MState.q_yes ∧ tgt = MState.qy1) ∨ (st = MState.q_no ∧ tgt = MState.qn1)) :
    ∀ (n : Nat) (m : TuringMachine) (p : Int) (f : Int → Char) (c : Nat),
      Conf m st p f c →
      (∀ i : Nat, i < n → isAB (f (p - i))) →
      f (p - n) = blank_symbol →
      ∃ m2, Reaches m (n + 1) m2 ∧
        Conf m2 tgt (p - n + 1)
          (fun q => if p - n ≤ q ∧ q ≤ p then blank_symbol else f q) (c + (n + 1)) := by
  intro n
  induction n with
  | zero =>
    intro m p f c hc _ hB
    have hB2 : f p = blank_symbol := by simpa using hB
    have hne : st ≠ halt_state := by
      rcases hst with ⟨h1, _⟩ | ⟨h1, _⟩ <;> subst h1 <;> decide
    have hr : transitions st (f p) = some ⟨tgt, 'B', 'R'⟩ := by
      rw [hB2]
      rcases hst with ⟨h1, h2⟩ | ⟨h1, h2⟩ <;> subst h1 <;> subst h2 <;> rfl
    have hnh : (⟨tgt, 'B', 'R'⟩ : Rule).newState ≠ halt_state := by
      rcases hst with ⟨_, h2⟩ | ⟨_, h2⟩ <;> subst h2 <;> decide
    obtain ⟨m2, hstep, hconf⟩ := step_rule_continue hc hne hr hnh
    refine ⟨m2, Reaches.more hstep (Reaches.refl m2), ?_⟩
    refine (hconf.retape ?_).cast ?_ ?_
    · intro q
      simp only [fupdate]
      by_cases hq : q = p
      · subst hq
        rw [if_pos rfl, if_pos (by omega)]
        simp [blank_symbol]
      · rw [if_neg hq, if_neg (by omega)]
    · rw [moveDelta_eq_R]
      omega
    · omega
  | succ n ih =>
    intro m p f c hc hab hB
    have hab0 : isAB (f p) := by simpa using hab 0 (by omega)
    have hne : st ≠ halt_state := by
      rcases hst with ⟨h1, _⟩ | ⟨h1, _⟩ <;> subst h1 <;> decide
    have step1 : ∃ m2, step m = (m2, StepResult.CONTINUE) ∧
        Conf m2 st (p - 1) (fupdate f p 'B') (c + 1) := by
      rcases hab0 with ha | hb
      · have hr : transitions st (f p) = some ⟨st, 'B', 'L'⟩ := by
          rw [ha]
          rcases hst with ⟨h1, _⟩ | ⟨h1, _⟩ <;> subst h1 <;> rfl
        have hnh : (⟨st, 'B', 'L'⟩ : Rule).newState ≠ halt_state := by
          rcases hst with ⟨h1, _⟩ | ⟨h1, _⟩ <;> subst h1 <;> decide
        obtain ⟨m2, hstep, hconf⟩ := step_rule_continue hc hne hr hnh
        exact ⟨m2, hstep, hconf.cast (by rw [moveDelta_eq_L]; omega) (by omega)⟩
      · have hr : transitions st (f p) = some ⟨st, 'B', 'L'⟩ := by
          rw [hb]
          rcases hst with ⟨h1, _⟩ | ⟨h1, _⟩ <;> subst h1 <;> rfl
        have hnh : (⟨st, 'B', 'L'⟩ : Rule).newState ≠ halt_state := by
          rcases hst with ⟨h1, _⟩ | ⟨h1, _⟩ <;> subst h1 <;> decide
        obtain ⟨m2, hstep, hconf⟩ := step_rule_continue hc hne hr hnh
        exact ⟨m2, hstep, hconf.cast (by rw [moveDelta_eq_L]; omega) (by omega)⟩
    obtain ⟨m2, hstep, hconf2⟩ := step1
    have hab2 : ∀ i : Nat, i < n → isAB (fupdate f p 'B' ((p - 1) - i)) := by
      intro i hi
      have hne2 : p - 1 - (i : Int) ≠ p := by omega
      have he : p - 1 - (i : Int) = p - ((i + 1 : Nat) : Int) := by omega
      rw [show fupdate f p 'B' (p - 1 - (i : Int)) = f (p - 1 - (i : Int)) from by
        simp [fupdate, hne2], he]
      exact hab (i + 1) (by omega)
    have hB2 : fupdate f p 'B' ((p - 1) - n) = blank_symbol := by
      have hne2 : p - 1 - (n : Int) ≠ p := by omega
      have he : p - 1 - (n : Int) = p - ((n + 1 : Nat) : Int) := by omega
      rw [show fupdate f p 'B' (p - 1 - (n : Int)) = f (p - 1 - (n : Int)) from by
        simp [fupdate, hne2], he]
      exact hB
    obtain ⟨m3, hre, hconf3⟩ := ih m2 (p - 1) (fupdate f p 'B') (c + 1) hconf2 hab2 hB2
    refine ⟨m3, Reaches.more hstep hre, (hconf3.retape ?_).cast (by omega) (by omega)⟩
    intro q
    simp only [fupdate]
    by_cases h1 : (p - 1) - n ≤ q ∧ q ≤ p - 1
    · rw [if_pos h1, if_pos (by omega)]
    · rw [if_neg h1]
      by_cases hq : q = p
      · subst hq
        rw [if_pos rfl, if_pos (by omega)]
        rfl
      · rw [if_neg hq, if_neg (by omega)]

theorem accept_from_qy1 (m : TuringMachine) (p : Int) (f : Int → Char) (c : Nat)
    (hc : Conf m MState.qy1 p f c) (hall : ∀ q, f q = blank_symbol) :
    TerminatesIn m 3 := by
  have hr1 : transitions MState.qy1 (f p) = some ⟨MState.qy2, 'Y', 'R'⟩ := by
    rw [hall p]; rfl
  obtain ⟨m1, h1, hconf1⟩ := step_rule_continue hc (by decide) hr1 (by decide)
  replace hconf1 := hconf1.cast (by rw [moveDelta_eq_R]) rfl
  have hread1 : fupdate f p 'Y' (p + 1) = blank_symbol := by
    simp only [fupdate, if_neg (show p + 1 ≠ p by omega)]
    exact hall (p + 1)
  have hr2 : transitions MState.qy2 (fupdate f p 'Y' (p + 1)) =
      some ⟨MState.qy3, 'E', 'R'⟩ := by
    rw [hread1]; rfl
  obtain ⟨m2, h2, hconf2⟩ := step_rule_continue hconf1 (by decide) hr2 (by decide)
  replace hconf2 := hconf2.cast (by rw [moveDelta_eq_R]) rfl
  have hread2 : fupdate (fupdate f p 'Y') (p + 1) 'E' (p + 1 + 1) = blank_symbol := by
    simp only [fupdate, if_neg (show p + 1 + 1 ≠ p + 1 by omega),
      if_neg (show p + 1 + 1 ≠ p by omega)]
    exact hall (p + 1 + 1)
  have hr3 : transitions MState.qy3 (fupdate (fupdate f p 'Y') (p + 1) 'E' (p + 1 + 1)) =
      some ⟨MState.q_halt, 'S', 'S'⟩ := by
    rw [hread2]; rfl
  obtain ⟨m3, h3, -⟩ := step_rule_halt hconf2 (by decide) hr3 (by decide)
  exact ⟨2, m2, m3, StepResult.HALT, rfl,
    Reaches.more h1 (Reaches.more h2 (Reaches.refl m2)), h3, by simp⟩

theorem reject_gap_qn1 (m : TuringMachine) (p : Int) (f : Int → Char) (c : Nat)
    (hc : Conf m MState.qn1 p f c) (hab : isAB (f p)) : TerminatesIn m 1 := by
  have hr : transitions MState.qn1 (f p) = none := by
    rcases hab with h | h <;> rw [h] <;> rfl
  exact terminatesIn_of_error (step_error_eq hc (by decide) hr)

theorem reject_residue_qn1 (m : TuringMachine) (p : Int) (f : Int → Char) (c : Nat)
    (hc : Conf m MState.qn1 p f c) (hB : f p = blank_symbol) (hab : isAB (f (p + 1))) :
    TerminatesIn m 2 := by
  have hr1 : transitions MState.qn1 (f p) = some ⟨MState.qn2, 'N', 'R'⟩ := by
    rw [hB]; rfl
  obtain ⟨m1, h1, hconf1⟩ := step_rule_continue hc (by decide) hr1 (by decide)
  replace hconf1 := hconf1.cast (by rw [moveDelta_eq_R]) rfl
  have hread1 : fupdate f p 'N' (p + 1) = f (p + 1) := by
    simp only [fupdate, if_neg (show p + 1 ≠ p by omega)]
  have hr2 : transitions MState.qn2 (fupdate f p 'N' (p + 1)) = none := by
    rw [hread1]
    rcases hab with h | h <;> rw [h] <;> rfl
  have hterm := terminatesIn_of_error (step_error_eq hconf1 (by decide) hr2)
  exact terminatesIn_comp (Reaches.more h1 (Reaches.refl m1)) hterm

theorem reject_halt_qn1 (m : TuringMachine) (p : Int) (f : Int → Char) (c : Nat)
    (hc : Conf m MState.qn1 p f c) (hB : f p = blank_symbol)
    (hB2 : f (p + 1) = blank_symbol) : TerminatesIn m 2 := by
  have hr1 : transitions MState.qn1 (f p) = some ⟨MState.qn2, 'N', 'R'⟩ := by
    rw [hB]; rfl
  obtain ⟨m1, h1, hconf1⟩ := step_rule_continue hc (by decide) hr1 (by decide)
  replace hconf1 := hconf1.cast (by rw [moveDelta_eq_R]) rfl
  have hread1 : fupdate f p 'N' (p + 1) = blank_symbol := by
    simp only [fupdate, if_neg (show p + 1 ≠ p by omega)]
    exact hB2
  have hr2 : transitions MState.qn2 (fupdate f p 'N' (p + 1)) =
      some ⟨MState.q_halt, 'O', 'S'⟩ := by
    rw [hread1]; rfl
  obtain ⟨m2, h2, -⟩ := step_rule_halt hconf1 (by decide) hr2 (by decide)
  have hterm := terminatesIn_of_halt h2
  exact terminatesIn_comp (Reaches.more h1 (Reaches.refl m1)) hterm

/-! ### Arithmetic and list helpers for the main induction -/

theorem fupdate_ne {f : Int → Char} {p q : Int} {w : Char} (h : q ≠ p) :
    fupdate f p w q = f q := by
  simp [fupdate, h]

theorem fupdate_eq {f : Int → Char} {p : Int} {w : Char} : fupdate f p w p = w := by
  simp [fupdate]

theorem terminatesIn_congr {m : TuringMachine} {k k2 : Nat}
    (h : TerminatesIn m k) (he : k = k2) : TerminatesIn m k2 := he ▸ h

theorem stepBound_ge (n : Nat) : 5 ≤ stepBound n := by
  induction n using Nat.strong_induction_on with
  | _ n ih =>
    rcases n with _ | (_ | n)
    · simp [stepBound]
    · simp [stepBound]
    · have := ih n (by omega)
      rw [show n + 1 + 1 = n + 2 from rfl, show stepBound (n + 2) = stepBound n + 2 * n + 5 from by
        simp [stepBound]]
      omega

theorem stepBound_le (n : Nat) : stepBound n ≤ 2 * n * n + 7 := by
  induction n using Nat.strong_induction_on with
  | _ n ih =>
    rcases n with _ | (_ | n)
    · simp [stepBound]
    · simp [stepBound]
    · have h1 := ih n (by omega)
      rw [show n + 1 + 1 = n + 2 from rfl, show stepBound (n + 2) = stepBound n + 2 * n + 5 from by
        simp [stepBound]]
      have h2 : 2 * (n + 2) * (n + 2) = 2 * n * n + 8 * n + 8 := by ring
      omega

theorem getD_dropLast (t : List Char) (i : Nat) (h : i < t.dropLast.length) :
    t.dropLast.getD i blank_symbol = t.getD i blank_symbol := by
  have h2 : i < t.length := lt_of_lt_of_le h (by rw [List.length_dropLast]; omega)
  rw [List.getD_eq_getElem?_getD, List.getD_eq_getElem?_getD,
    List.getElem?_eq_getElem h, List.getElem?_eq_getElem h2,
    Option.getD_some, Option.getD_some]
  exact List.getElem_dropLast t i h

theorem getD_inner (s : List Char) (i : Nat) (h : i < (s.drop 1).dropLast.length) :
    ((s.drop 1).dropLast).getD i blank_symbol = s.getD (i + 1) blank_symbol := by
  cases s with
  | nil => simp at h
  | cons x t =>
    rw [show (x :: t).drop 1 = t from rfl] at h ⊢
    rw [getD_dropLast t i h]
    rfl

theorem getD_mem_of_lt {s : List Char} {i : Nat} (h : i < s.length) :
    s.getD i blank_symbol ∈ s := by
  rw [List.getD_eq_getElem?_getD, List.getElem?_eq_getElem h, Option.getD_some]
  exact List.getElem_mem ..

theorem accept_from_qyes (m : TuringMachine) (p : Int) (f : Int → Char) (c : Nat)
    (hc : Conf m MState.q_yes p f c) (hall : ∀ q, f q = blank_symbol) :
    TerminatesIn m 4 := by
  obtain ⟨m2, h2, hconf2⟩ := sweep_left (Or.inl ⟨rfl, rfl⟩) 0 m p f c hc
    (fun i hi => absurd hi (Nat.not_lt_zero i)) (by simpa using hall (p - 0))
  have hconf2b : Conf m2 MState.qy1 (p - (0 : Nat) + 1) (fun _ => blank_symbol) (c + (0 + 1)) :=
    hconf2.retape (fun q => by
      by_cases h : p - ((0 : Nat) : Int) ≤ q ∧ q ≤ p <;> simp [h, hall q])
  have ht := accept_from_qy1 m2 _ _ _ hconf2b (fun _ => rfl)
  exact terminatesIn_congr (terminatesIn_comp h2 ht) (by omega)

theorem seg_terminates (n : Nat) :
    ∀ (s : List Char) (m : TuringMachine) (l : Int) (f : Int → Char) (c : Nat),
      s.length = n →
      (∀ x ∈ s, isAB x) →
      Conf m MState.q0 l f c →
      (∀ i : Nat, i < s.length → f (l + i) = s.getD i blank_symbol) →
      (∀ q : Int, q < l ∨ l + s.length ≤ q → f q = blank_symbol) →
      ∃ k, k ≤ stepBound n ∧ TerminatesIn m k := by
  induction n using Nat.strong_induction_on with
  | _ n ih =>
    intro s m l f c hlen hab hc hseg hout
    rcases n with _ | (_ | n)
    · -- empty segment: accept in 5 calls
      have hall : ∀ q, f q = blank_symbol := by
        intro q
        rcases lt_or_le q l with h | h
        · exact hout q (Or.inl h)
        · exact hout q (Or.inr (by rw [hlen]; omega))
      have hr : transitions MState.q0 (f l) = some ⟨MState.q_yes, 'B', 'L'⟩ := by
        rw [hall l]; rfl
      obtain ⟨m1, h1, hconf1⟩ := step_rule_continue hc (by decide) hr (by decide)
      have hconf1b : Conf m1 MState.q_yes (l - 1) f (c + 1) :=
        (hconf1.retape (fun q => by
          by_cases hq : q = l <;> simp [fupdate, hq, hall q, hall l, blank_symbol])).cast
          (by rw [moveDelta_eq_L]; omega) rfl
      have ht := accept_from_qyes m1 _ _ _ hconf1b hall
      refine ⟨1 + 4, by simp [stepBound], ?_⟩
      exact terminatesIn_comp (Reaches.more h1 (Reaches.refl m1)) ht
    · -- one-symbol segment: accept in 7 calls
      obtain ⟨x, hs⟩ := List.length_eq_one.mp hlen
      subst hs
      have hx : isAB x := hab x (by simp)
      have hfl : f l = x := by simpa using hseg 0 (by simp)
      have houtb : ∀ q : Int, q < l ∨ l + 1 ≤ q → f q = blank_symbol := by
        intro q hq
        exact hout q (by simpa using hq)
      have hstage : ∃ chk m2, (chk = MState.q3 ∨ chk = MState.q4) ∧ Reaches m 2 m2 ∧
          Conf m2 chk l (fupdate f l 'B') (c + 2) := by
        rcases hx with hxa | hxb
        · have hr : transitions MState.q0 (f l) = some ⟨MState.q1, 'B', 'R'⟩ := by
            rw [hfl, hxa]; rfl
          obtain ⟨m1, h1, hconf1⟩ := step_rule_continue hc (by decide) hr (by decide)
          have hconf1b : Conf m1 MState.q1 (l + 1) (fupdate f l 'B') (c + 1) :=
            hconf1.cast (by rw [moveDelta_eq_R]) rfl
          have hBend : fupdate f l 'B' ((l + 1) + ((0 : Nat) : Int)) = blank_symbol := by
            rw [fupdate_ne (by omega)]
            exact houtb _ (Or.inr (by omega))
          obtain ⟨m2, h2, hconf2⟩ := scan_right (Or.inl ⟨rfl, rfl⟩) 0 m1 (l + 1)
            (fupdate f l 'B') (c + 1) hconf1b (fun i hi => absurd hi (Nat.not_lt_zero i)) hBend
          exact ⟨MState.q3, m2, Or.inl rfl, Reaches.more h1 h2,
            hconf2.cast (by omega) (by omega)⟩
        · have hr : transitions MState.q0 (f l) = some ⟨MState.q2, 'B', 'R'⟩ := by
            rw [hfl, hxb]; rfl
          obtain ⟨m1, h1, hconf1⟩ := step_rule_continue hc (by decide) hr (by decide)
          have hconf1b : Conf m1 MState.q2 (l + 1) (fupdate f l 'B') (c + 1) :=
            hconf1.cast (by rw [moveDelta_eq_R]) rfl
          have hBend : fupdate f l 'B' ((l + 1) + ((0 : Nat) : Int)) = blank_symbol := by
            rw [fupdate_ne (by omega)]
            exact houtb _ (Or.inr (by omega))
          obtain ⟨m2, h2, hconf2⟩ := scan_right (Or.inr ⟨rfl, rfl⟩) 0 m1 (l + 1)
            (fupdate f l 'B') (c + 1) hconf1b (fun i hi => absurd hi (Nat.not_lt_zero i)) hBend
          exact ⟨MState.q4, m2, Or.inr rfl, Reaches.more h1 h2,
            hconf2.cast (by omega) (by omega)⟩
      obtain ⟨chk, m2, hchk, hre2, hconf2⟩ := hstage
      have hne : chk ≠ halt_state := by rcases hchk with rfl | rfl <;> decide
      have hrB : transitions chk (fupdate f l 'B' l) = some ⟨MState.q_yes, 'B', 'L'⟩ := by
        rw [fupdate_eq]
        rcases hchk with rfl | rfl <;> rfl
      obtain ⟨m3, h3, hconf3⟩ := step_rule_continue hconf2 hne hrB (by decide)
      have hall3 : ∀ q, fupdate (fupdate f l 'B') l 'B' q = blank_symbol := by
        intro q
        by_cases hq : q = l
        · subst hq; rw [fupdate_eq]; rfl
        · rw [fupdate_ne hq, fupdate_ne hq]
          exact houtb q (by omega)
      have hconf3b : Conf m3 MState.q_yes (l - 1) (fupdate (fupdate f l 'B') l 'B') (c + 3) :=
        hconf3.cast (by rw [moveDelta_eq_L]; omega) (by omega)
      have ht := accept_from_qyes m3 _ _ _ hconf3b hall3
      refine ⟨7, by simp [stepBound], ?_⟩
      have ht2 := terminatesIn_comp (Reaches.more h3 (Reaches.refl m3)) ht
      have ht3 := terminatesIn_comp hre2 ht2
      exact terminatesIn_congr ht3 (by omega)
    · -- segment of length n + 2: one full outer cycle, then recurse or stop
      rw [show n + 1 + 1 = n + 2 from rfl] at hlen
      have hx : isAB (s.getD 0 blank_symbol) := hab _ (getD_mem_of_lt (by omega))
      have hd : isAB (s.getD (n + 1) blank_symbol) := hab _ (getD_mem_of_lt (by omega))
      have hfl : f l = s.getD 0 blank_symbol := by simpa using hseg 0 (by omega)
      have hfd : f (l + ((n + 1 : Nat) : Int)) = s.getD (n + 1) blank_symbol :=
        hseg (n + 1) (by omega)
      -- stage 1: q0 erases the first symbol, scan right to the last remaining symbol
      have hstage : ∃ chk m2, (chk = MState.q3 ∨ chk = MState.q4) ∧
          Reaches m (n + 3) m2 ∧
          Conf m2 chk (l + (n : Int) + 1) (fupdate f l 'B') (c + (n + 3)) := by
        have hscanPre : ∀ i : Nat, i < n + 1 → isAB (fupdate f l 'B' ((l + 1) + i)) := by
          intro i hi
          rw [fupdate_ne (by omega), show l + 1 + (i : Int) = l + ((i + 1 : Nat) : Int) from by
            omega, hseg (i + 1) (by omega)]
          exact hab _ (getD_mem_of_lt (by omega))
        have hBend : fupdate f l 'B' ((l + 1) + ((n + 1 : Nat) : Int)) = blank_symbol := by
          rw [fupdate_ne (by omega)]
          exact hout _ (Or.inr (by rw [hlen]; push_cast; omega))
        rcases hx with hxa | hxb
        · have hr : transitions MState.q0 (f l) = some ⟨MState.q1, 'B', 'R'⟩ := by
            rw [hfl, hxa]; rfl
          obtain ⟨m1, h1, hconf1⟩ := step_rule_continue hc (by decide) hr (by decide)
          have hconf1b : Conf m1 MState.q1 (l + 1) (fupdate f l 'B') (c + 1) :=
            hconf1.cast (by rw [moveDelta_eq_R]) rfl
          obtain ⟨m2, h2, hconf2⟩ := scan_right (Or.inl ⟨rfl, rfl⟩) (n + 1) m1 (l + 1)
            (fupdate f l 'B') (c + 1) hconf1b hscanPre hBend
          exact ⟨MState.q3, m2, Or.inl rfl, Reaches.more h1 h2,
            hconf2.cast (by push_cast; omega) (by omega)⟩
        · have hr : transitions MState.q0 (f l) = some ⟨MState.q2, 'B', 'R'⟩ := by
            rw [hfl, hxb]; rfl
          obtain ⟨m1, h1, hconf1⟩ := step_rule_continue hc (by decide) hr (by decide)
          have hconf1b : Conf m1 MState.q2 (l + 1) (fupdate f l 'B') (c + 1) :=
            hconf1.cast (by rw [moveDelta_eq_R]) rfl
          obtain ⟨m2, h2, hconf2⟩ := scan_right (Or.inr ⟨rfl, rfl⟩) (n + 1) m1 (l + 1)
            (fupdate f l 'B') (c + 1) hconf1b hscanPre hBend
          exact ⟨MState.q4, m2, Or.inr rfl, Reaches.more h1 h2,
            hconf2.cast (by push_cast; omega) (by omega)⟩
      obtain ⟨chk, m2, hchk, hre2, hconf2⟩ := hstage
      have hne : chk ≠ halt_state := by rcases hchk with rfl | rfl <;> decide
      have hread : fupdate f l 'B' (l + (n : Int) + 1) = s.getD (n + 1) blank_symbol := by
        rw [fupdate_ne (by omega), show l + (n : Int) + 1 = l + ((n + 1 : Nat) : Int) from by
          omega]
        exact hfd
      have hmid : ∀ i : Nat, i < n → isAB (fupdate f l 'B' ((l + (n : Int)) - i)) := by
        intro i hi
        rw [fupdate_ne (by omega), show l + (n : Int) - (i : Int) = l + ((n - i : Nat) : Int)
          from by omega, hseg (n - i) (by omega)]
        exact hab _ (getD_mem_of_lt (by omega))
      have hmidB : fupdate f l 'B' ((l + (n : Int)) - n) = blank_symbol := by
        rw [show l + (n : Int) - (n : Int) = l from by omega, fupdate_eq]
        rfl
      -- continuation A: the last symbol matches, erase it, return left, recurse
      have contMatch : transitions chk (fupdate f l 'B' (l + (n : Int) + 1)) =
          some ⟨MState.q5, 'B', 'L'⟩ → ∃ k, k ≤ stepBound (n + 2) ∧ TerminatesIn m k := by
        intro hr
        obtain ⟨m3, h3, hconf3⟩ := step_rule_continue hconf2 hne hr (by decide)
        have hconf3b : Conf m3 MState.q5 (l + (n : Int))
            (fupdate (fupdate f l 'B') (l + (n : Int) + 1) 'B') (c + (n + 4)) :=
          hconf3.cast (by rw [moveDelta_eq_L]; omega) (by omega)
        have hmid3 : ∀ i : Nat, i < n →
            isAB (fupdate (fupdate f l 'B') (l + (n : Int) + 1) 'B' ((l + (n : Int)) - i)) := by
          intro i hi
          rw [fupdate_ne (by omega)]
          exact hmid i hi
        have hmid3B : fupdate (fupdate f l 'B') (l + (n : Int) + 1) 'B'
            ((l + (n : Int)) - n) = blank_symbol := by
          rw [fupdate_ne (by omega)]
          exact hmidB
        obtain ⟨m4, h4, hconf4⟩ := q5_left n m3 (l + (n : Int))
          (fupdate (fupdate f l 'B') (l + (n : Int) + 1) 'B') (c + (n + 4)) hconf3b hmid3 hmid3B
        have hconf4b : Conf m4 MState.q0 (l + 1)
            (fupdate (fupdate f l 'B') (l + (n : Int) + 1) 'B') (c + (2 * n + 5)) :=
          hconf4.cast (by omega) (by omega)
        have hlen2 : ((s.drop 1).dropLast).length = n := by
          simp [List.length_dropLast, List.length_drop, hlen]
        have hab2 : ∀ x ∈ (s.drop 1).dropLast, isAB x := fun x hx =>
          hab x ((List.drop_sublist 1 s).subset ((List.dropLast_sublist (s.drop 1)).subset hx))
        have hseg2 : ∀ i : Nat, i < ((s.drop 1).dropLast).length →
            fupdate (fupdate f l 'B') (l + (n : Int) + 1) 'B' ((l + 1) + i) =
              ((s.drop 1).dropLast).getD i blank_symbol := by
          intro i hi
          rw [hlen2] at hi
          rw [fupdate_ne (by omega), fupdate_ne (by omega),
            show l + 1 + (i : Int) = l + ((i + 1 : Nat) : Int) from by omega,
            hseg (i + 1) (by omega), getD_inner s i (by rw [hlen2]; exact hi)]
        have hout2 : ∀ q : Int, q < l + 1 ∨ (l + 1) + (((s.drop 1).dropLast).length : Int) ≤ q →
            fupdate (fupdate f l 'B') (l + (n : Int) + 1) 'B' q = blank_symbol := by
          intro q hq
          rw [hlen2] at hq
          by_cases h1 : q = l + (n : Int) + 1
          · rw [h1, fupdate_eq]; rfl
          · rw [fupdate_ne h1]
            by_cases h2 : q = l
            · rw [h2, fupdate_eq]; rfl
            · rw [fupdate_ne h2]
              exact hout q (by rw [hlen]; push_cast; omega)
        obtain ⟨k, hk, ht⟩ := ih n (by omega) ((s.drop 1).dropLast) m4 (l + 1)
          (fupdate (fupdate f l 'B') (l + (n : Int) + 1) 'B') (c + (2 * n + 5))
          hlen2 hab2 hconf4b hseg2 hout2
        refine ⟨(n + 3) + (1 + ((n + 1) + k)), ?_, ?_⟩
        · rw [show stepBound (n + 2) = stepBound n + 2 * n + 5 from by simp [stepBound]]
          omega
        · exact terminatesIn_comp hre2 (terminatesIn_comp
            (Reaches.more h3 (Reaches.refl m3)) (terminatesIn_comp h4 ht))
      -- continuation B: the last symbol mismatches, sweep left in q_no, then stop
      have contMis : transitions chk (fupdate f l 'B' (l + (n : Int) + 1)) =
          some ⟨MState.q_no, s.getD (n + 1) blank_symbol, 'L'⟩ →
          ∃ k, k ≤ stepBound (n + 2) ∧ TerminatesIn m k := by
        intro hr
        obtain ⟨m3, h3, hconf3⟩ := step_rule_continue hconf2 hne hr
          (show MState.q_no ≠ halt_state from by decide)
        have hconf3b : Conf m3 MState.q_no (l + (n : Int)) (fupdate f l 'B') (c + (n + 4)) :=
          (hconf3.retape (fun q => by
            by_cases hq : q = l + (n : Int) + 1
            · rw [hq, fupdate_eq, hread]
            · rw [fupdate_ne hq])).cast (by rw [moveDelta_eq_L]; omega) (by omega)
        obtain ⟨m4, h4, hconf4⟩ := sweep_left (Or.inr ⟨rfl, rfl⟩) n m3 (l + (n : Int))
          (fupdate f l 'B') (c + (n + 4)) hconf3b hmid hmidB
        have hconf4b : Conf m4 MState.qn1 (l + 1)
            (fun q => if l + (n : Int) - n ≤ q ∧ q ≤ l + (n : Int) then blank_symbol
              else fupdate f l 'B' q) (c + (2 * n + 5)) :=
          hconf4.cast (by omega) (by omega)
        have hterm : ∃ k4, k4 ≤ 2 ∧ TerminatesIn m4 k4 := by
          by_cases hn0 : n = 0
          · refine ⟨1, by omega, reject_gap_qn1 m4 (l + 1) _ _ hconf4b ?_⟩
            show isAB (if l + (n : Int) - n ≤ l + 1 ∧ l + 1 ≤ l + (n : Int) then blank_symbol
              else fupdate f l 'B' (l + 1))
            rw [if_neg (by omega), show (l + 1 : Int) = l + (n : Int) + 1 from by omega, hread]
            exact hd
          · by_cases hn1 : n = 1
            · refine ⟨2, by omega, reject_residue_qn1 m4 (l + 1) _ _ hconf4b ?_ ?_⟩
              · show (if l + (n : Int) - n ≤ l + 1 ∧ l + 1 ≤ l + (n : Int) then blank_symbol
                  else fupdate f l 'B' (l + 1)) = blank_symbol
                rw [if_pos (by omega)]
              · show isAB (if l + (n : Int) - n ≤ l + 1 + 1 ∧ l + 1 + 1 ≤ l + (n : Int)
                  then blank_symbol else fupdate f l 'B' (l + 1 + 1))
                rw [if_neg (by omega), show (l + 1 + 1 : Int) = l + (n : Int) + 1 from by omega,
                  hread]
                exact hd
            · refine ⟨2, by omega, reject_halt_qn1 m4 (l + 1) _ _ hconf4b ?_ ?_⟩
              · show (if l + (n : Int) - n ≤ l + 1 ∧ l + 1 ≤ l + (n : Int) then blank_symbol
                  else fupdate f l 'B' (l + 1)) = blank_symbol
                rw [if_pos (by omega)]
              · show (if l + (n : Int) - n ≤ l + 1 + 1 ∧ l + 1 + 1 ≤ l + (n : Int)
                  then blank_symbol else fupdate f l 'B' (l + 1 + 1)) = blank_symbol
                rw [if_pos (by omega)]
        obtain ⟨k4, hk4, ht4⟩ := hterm
        refine ⟨(n + 3) + (1 + ((n + 1) + k4)), ?_, ?_⟩
        · rw [show stepBound (n + 2) = stepBound n + 2 * n + 5 from by simp [stepBound]]
          have := stepBound_ge n
          omega
        · exact terminatesIn_comp hre2 (terminatesIn_comp
            (Reaches.more h3 (Reaches.refl m3)) (terminatesIn_comp h4 ht4))
      rcases hchk with rfl | rfl
      · rcases hd with hda | hdb
        · exact contMatch (by rw [hread, hda]; rfl)
        · exact contMis (by rw [hread, hdb]; rfl)
      · rcases hd with hda | hdb
        · exact contMis (by rw [hread, hda]; rfl)
        · exact contMatch (by rw [hread, hdb]; rfl)

/-! ### The initialized machine as a segment configuration -/

theorem tape_get_enumFrom (s : List Char) (j : Nat) (q : Int) :
    tape_get ((s.enumFrom j).map fun ic => ((ic.1 : Int), ic.2)) q =
      if (j : Int) ≤ q ∧ q < (j : Int) + s.length then s.getD (q - j).toNat blank_symbol
      else blank_symbol := by
  induction s generalizing j with
  | nil =>
    simp only [List.enumFrom, List.map_nil, tape_get, List.length_nil]
    rw [if_neg (by omega)]
  | cons ch t ih =>
    simp only [List.enumFrom_cons, List.map_cons, tape_get, List.length_cons]
    by_cases hq : (j : Int) = q
    · rw [if_pos hq, if_pos (by push_cast; omega)]
      rw [show (q - (j : Int)).toNat = 0 from by omega]
      rfl
    · rw [if_neg hq, ih (j + 1)]
      by_cases h2 : ((j + 1 : Nat) : Int) ≤ q ∧ q < ((j + 1 : Nat) : Int) + t.length
      · rw [if_pos h2, if_pos (by push_cast at h2 ⊢; omega)]
        rw [show (q - (j : Int)).toNat = (q - ((j + 1 : Nat) : Int)).toNat + 1 from by
          push_cast at h2 ⊢; omega]
        rfl
      · rw [if_neg h2, if_neg (by push_cast at h2 ⊢; omega)]

theorem initMachine_success (m : TuringMachine) (s : List Char) (h : ∀ x ∈ s, isAB x) :
    initMachine m s =
      ({ m with
          original_input := s,
          tape := s.enum.map (fun ic => ((ic.1 : Int), ic.2)),
          head_position := 0, current_state := MState.q0, step_count := 0,
          execution_log := [], error_message := "" }, true) := by
  rw [initMachine, if_pos]
  rw [List.all_eq_true]
  intro x hx
  rcases h x hx with h1 | h1 <;> simp [h1]

theorem initMachine_tape (s : List Char) (q : Int) :
    tape_get (s.enum.map fun ic => ((ic.1 : Int), ic.2)) q =
      if 0 ≤ q ∧ q < s.length then s.getD q.toNat blank_symbol else blank_symbol := by
  rw [show s.enum = s.enumFrom 0 from rfl, tape_get_enumFrom s 0 q]
  by_cases h : 0 ≤ q ∧ q < (s.length : Int)
  · rw [if_pos (by push_cast; omega), if_pos h,
      show q - ((0 : Nat) : Int) = q from by omega]
  · rw [if_neg (by push_cast; omega), if_neg h]

theorem initMachine_conf (m : TuringMachine) (s : List Char) (h : ∀ x ∈ s, isAB x) :
    Conf ((initMachine m s).1) MState.q0 0
      (fun q => if 0 ≤ q ∧ q < s.length then s.getD q.toNat blank_symbol else blank_symbol)
      0 := by
  rw [initMachine_success m s h]
  refine ⟨rfl, rfl, ?_, rfl⟩
  intro q
  exact initMachine_tape s q

theorem initMachine_terminates (s : List Char) (h : ∀ x ∈ s, isAB x) :
    ∃ k, k ≤ stepBound s.length ∧ TerminatesIn ((initMachine mkTuringMachine s).1) k := by
  refine seg_terminates s.length s ((initMachine mkTuringMachine s).1) 0 _ 0
    rfl h (initMachine_conf mkTuringMachine s h) ?_ ?_
  · intro i hi
    show (if 0 ≤ (0 : Int) + i ∧ (0 : Int) + i < s.length then
        s.getD ((0 : Int) + i).toNat blank_symbol else blank_symbol) = s.getD i blank_symbol
    rw [if_pos (by omega), show (((0 : Int) + i).toNat) = i from by omega]
  · intro q hq
    show (if 0 ≤ q ∧ q < s.length then s.getD q.toNat blank_symbol else blank_symbol) =
      blank_symbol
    rw [if_neg (by omega)]

/-- C7 (as stated, counterexample): it is not true that there is a fixed constant `cst`
with the total number of `step` calls of a terminating run bounded by `cst` times the
square of the input length: the empty input is accepted by the initialization, its run
terminates (after 5 calls), yet `cst * 0 ^ 2 = 0` and no run can terminate in `0` calls. -/
theorem run_quadratic_counterexample :
    ¬ ∃ cst : Nat, ∀ s : List Char, (∀ x ∈ s, isAB x) →
      ∃ k, TerminatesIn ((initMachine mkTuringMachine s).1) k ∧ k ≤ cst * s.length ^ 2 := by
  rintro ⟨cst, h⟩
  obtain ⟨k, hterm, hk⟩ := h [] (by simp)
  obtain ⟨j, _, _, _, hj, -⟩ := hterm
  simp at hk
  omega

/-- C7 (amended): for every input over the alphabet accepted by the initialization,
the run loop (repeated `step` until a non-`Continue` result) terminates, and the total
number of executed `step` calls is bounded by a fixed constant (7) times the square of
the input length plus one. -/
theorem run_terminates_quadratic (s : List Char) (h : ∀ x ∈ s, isAB x) :
    ∃ k, k ≤ 7 * (s.length + 1) ^ 2 ∧
      TerminatesIn ((initMachine mkTuringMachine s).1) k ∧
      ∀ fuel, k ≤ fuel →
        (runSteps fuel ((initMachine mkTuringMachine s).1)).2 ≠ StepResult.CONTINUE := by
  obtain ⟨k, hk, ht⟩ := initMachine_terminates s h
  refine ⟨k, ?_, ht, terminates_runSteps ht⟩
  have h1 : stepBound s.length ≤ 2 * s.length * s.length + 7 := stepBound_le s.length
  have h2 : 7 * (s.length + 1) ^ 2 = 7 * s.length * s.length + 14 * s.length + 7 := by ring
  have h3 : 2 * s.length * s.length ≤ 7 * s.length * s.length :=
    Nat.mul_le_mul_right s.length (by omega)
  omega

/-- Witness for `run_terminates_quadratic` at the concrete input `"ab"`. -/
theorem run_terminates_quadratic_witness :
    ∃ k, k ≤ 7 * ((['a', 'b'] : List Char).length + 1) ^ 2 ∧
      TerminatesIn ((initMachine mkTuringMachine ['a', 'b']).1) k ∧
      ∀ fuel, k ≤ fuel →
        (runSteps fuel ((initMachine mkTuringMachine ['a', 'b']).1)).2 ≠
          StepResult.CONTINUE :=
  run_terminates_quadratic ['a', 'b'] (by simp [isAB])

/-! ### The claims -/

/-- C1: the claim states that for every input over `{a, b}` of length 0 through 12 the
run terminates with decoded verdict Yes exactly for palindromes and No otherwise.  The
code does not satisfy it: `"ab"` is not a palindrome, so the verdict should be No, but
the run hits a transition gap (`step` returns `ERROR` on the sixth call), and the final
decoded tape string is `"b"`, whose decoded verdict is Malformed, not No. -/
theorem palindrome_verdict_code_bug :
    (['a', 'b'] : List Char).reverse ≠ ['a', 'b'] ∧
    (∀ x ∈ (['a', 'b'] : List Char), isAB x) ∧
    (initMachine mkTuringMachine ['a', 'b']).2 = true ∧
    (runSteps 6 m_ab).2 = StepResult.ERROR ∧
    get_tape_content (runSteps 6 m_ab).1.tape = "b" ∧
    decode_result (get_tape_content (runSteps 6 m_ab).1.tape) = Verdict.Malformed := by
  refine ⟨by decide, by simp [isAB], by decide, by decide, by decide, by decide⟩

/-- C2: the claim states that every accepted input decodes, after the run, to exactly
`"YES"` or exactly `"NO"`.  The code does not satisfy it: on `"abab"` the machine halts
normally but the mismatched symbol is left on the tape to the right of the verdict, so
the decoded string is `"NOb"`. -/
theorem final_content_code_bug :
    (initMachine mkTuringMachine ['a', 'b', 'a', 'b']).2 = true ∧
    (runSteps 11 m_abab).2 = StepResult.HALT ∧
    get_tape_content (runSteps 11 m_abab).1.tape = "NOb" ∧
    ("NOb" : String) ≠ "YES" ∧ ("NOb" : String) ≠ "NO" := by
  refine ⟨by decide, by decide, by decide, by decide, by decide⟩

/-- C3: the claim states that no `(state, symbol)` pair reached from a validated input
lacks a transition, i.e. the `ERROR` branch of `step` is unreachable.  The code does not
satisfy it: from the validated input `"ab"`, the first five `step` calls return
`CONTINUE` and the sixth reaches state `qn1` over symbol `b`, which has no transition,
so `step` takes the `ERROR` branch and records the transition-gap message. -/
theorem transition_gap_code_bug :
    (initMachine mkTuringMachine ['a', 'b']).2 = true ∧
    (runSteps 5 m_ab).2 = StepResult.CONTINUE ∧
    (runSteps 6 m_ab).2 = StepResult.ERROR ∧
    (runSteps 6 m_ab).1.error_message =
      "No transition for state 'qn1' and symbol 'b'" := by
  refine ⟨by decide, by decide, by decide, by decide⟩

/-- C4: for every machine whose state is not the halt state, `step` with an applicable
rule writes the rule symbol at the head, moves the head by −1 / +1 / 0 for Left / Right
/ Stay, adopts the rule state, increments the step count by one, and returns Continue
exactly when the new state is not the halt state; with no applicable rule it sets the
halt state and returns Error with a message naming the offending state and symbol. -/
theorem step_spec (m : TuringMachine) (h : m.current_state ≠ halt_state) :
    (∀ r : Rule, transitions m.current_state (tape_get m.tape m.head_position) = some r →
      (step m).1.tape = tape_set m.tape m.head_position r.write ∧
      (r.move = 'L' → (step m).1.head_position = m.head_position - 1) ∧
      (r.move = 'R' → (step m).1.head_position = m.head_position + 1) ∧
      (r.move = 'S' → (step m).1.head_position = m.head_position) ∧
      (step m).1.current_state = r.newState ∧
      (step m).1.step_count = m.step_count + 1 ∧
      (step m).2 = (if r.newState = halt_state then StepResult.HALT
        else StepResult.CONTINUE)) ∧
    (transitions m.current_state (tape_get m.tape m.head_position) = none →
      (step m).1.current_state = halt_state ∧
      (step m).2 = StepResult.ERROR ∧
      (step m).1.error_message = "No transition for state '" ++
        stateName m.current_state ++ "' and symbol '" ++
        String.mk [tape_get m.tape m.head_position] ++ "'") := by
  have hcm : Conf m m.current_state m.head_position (fun q => tape_get m.tape q)
      m.step_count := ⟨rfl, rfl, fun q => rfl, rfl⟩
  constructor
  · intro r hr
    rw [step_rule_eq hcm h hr]
    refine ⟨rfl, ?_, ?_, ?_, rfl, rfl, rfl⟩
    · intro hL
      show m.head_position + (if r.move = 'R' then 1 else if r.move = 'L' then -1 else 0) =
        m.head_position - 1
      rw [hL, if_neg char_LR, if_pos rfl]
      omega
    · intro hR
      show m.head_position + (if r.move = 'R' then 1 else if r.move = 'L' then -1 else 0) =
        m.head_position + 1
      rw [hR, if_pos rfl]
    · intro hS
      show m.head_position + (if r.move = 'R' then 1 else if r.move = 'L' then -1 else 0) =
        m.head_position
      rw [hS, if_neg char_SR, if_neg char_SL]
      omega
  · intro hr
    rw [step_error_eq hcm h hr]
    exact ⟨rfl, rfl, rfl⟩

/-- Witness for `step_spec`: the machine initialized with `"a"` is in state `q0`
reading `a`; the applicable rule sends it to `q1` one cell to the right. -/
theorem step_spec_witness :
    (step m_a).1.current_state = MState.q1 ∧ (step m_a).1.step_count = 1 ∧
    (step m_a).1.head_position = 1 ∧ (step m_a).2 = StepResult.CONTINUE := by
  have h := (step_spec m_a (by decide)).1 ⟨MState.q1, 'B', 'R'⟩ (by decide)
  refine ⟨h.2.2.2.2.1, ?_, ?_, ?_⟩
  · rw [h.2.2.2.2.2.1]
    decide
  · rw [h.2.2.1 rfl]
    decide
  · rw [h.2.2.2.2.2.2]
    decide

/-- C5: initialization succeeds exactly when every character is `a` or `b`; on success
the tape is reset to exactly the input string (position `i` reads the `i`-th character,
every other position reads blank, and the tape mapping is rebuilt from the input alone,
discarding any prior content), the head is 0, the state is `q0` and the step count is
0; on failure the machine is returned unchanged. -/
theorem initMachine_spec (m : TuringMachine) (input : List Char) :
    ((initMachine m input).2 = true ↔ ∀ c ∈ input, c = 'a' ∨ c = 'b') ∧
    ((initMachine m input).2 = true →
      (∀ i : Nat, i < input.length →
        tape_get (initMachine m input).1.tape i = input.getD i blank_symbol) ∧
      (∀ q : Int, q < 0 ∨ (input.length : Int) ≤ q →
        tape_get (initMachine m input).1.tape q = blank_symbol) ∧
      (initMachine m input).1.tape = input.enum.map (fun ic => ((ic.1 : Int), ic.2)) ∧
      (initMachine m input).1.head_position = 0 ∧
      (initMachine m input).1.current_state = MState.q0 ∧
      (initMachine m input).1.step_count = 0 ∧
      (initMachine m input).1.original_input = input ∧
      (initMachine m input).1.execution_log = [] ∧
      (initMachine m input).1.error_message = "") ∧
    ((initMachine m input).2 = false → (initMachine m input).1 = m) := by
  by_cases hval : ∀ c ∈ input, c = 'a' ∨ c = 'b'
  · rw [initMachine_success m input hval]
    refine ⟨iff_of_true rfl hval, ?_, by simp⟩
    intro _
    refine ⟨?_, ?_, rfl, rfl, rfl, rfl, rfl, rfl, rfl⟩
    · intro i hi
      show tape_get (input.enum.map fun ic => ((ic.1 : Int), ic.2)) i = _
      rw [initMachine_tape input i, if_pos (by omega),
        show ((i : Int)).toNat = i from by omega]
    · intro q hq
      show tape_get (input.enum.map fun ic => ((ic.1 : Int), ic.2)) q = blank_symbol
      rw [initMachine_tape input q, if_neg (by omega)]
  · have hfail : initMachine m input = (m, false) := by
      rw [initMachine, if_neg]
      intro hcon
      rw [List.all_eq_true] at hcon
      refine hval (fun c hc => ?_)
      have := hcon c hc
      simpa using this
    rw [hfail]
    exact ⟨iff_of_false (by simp) hval, by simp, fun _ => rfl⟩

/-- Witness for `initMachine_spec` at the machine freshly constructed and the
input `"ab"`: the iff, a blank read beyond the input on success, and the
unchanged machine on the failing input `"c"`. -/
theorem initMachine_spec_witness :
    ((initMachine mkTuringMachine ['a', 'b']).2 = true ↔
      ∀ c ∈ (['a', 'b'] : List Char), c = 'a' ∨ c = 'b') ∧
    tape_get (initMachine mkTuringMachine ['a', 'b']).1.tape 5 = blank_symbol ∧
    ((initMachine mkTuringMachine ['c']).2 = false →
      (initMachine mkTuringMachine ['c']).1 = mkTuringMachine) :=
  ⟨(initMachine_spec mkTuringMachine ['a', 'b']).1,
    ((initMachine_spec mkTuringMachine ['a', 'b']).2.1 rfl).2.1 5 (by decide),
    (initMachine_spec mkTuringMachine ['c']).2.2⟩

/-- C6: once the machine is in the halt state, `step` returns `HALT` and changes
nothing, and this remains true for every number of repeated calls. -/
theorem step_idempotent_after_halt (m : TuringMachine) (h : m.current_state = halt_state) :
    step m = (m, StepResult.HALT) ∧
    ∀ k : Nat, stepIter k m = m ∧ (step (stepIter k m)).2 = StepResult.HALT := by
  have hs := step_halted m h
  refine ⟨hs, ?_⟩
  intro k
  induction k with
  | zero => exact ⟨rfl, by rw [show stepIter 0 m = m from rfl, hs]⟩
  | succ k ih =>
    rw [show stepIter (k + 1) m = stepIter k (step m).1 from rfl, hs]
    simpa using ih

/-- Witness for `step_idempotent_after_halt` at the machine obtained by running the
input `"a"` to completion. -/
theorem step_idempotent_after_halt_witness :
    step m_halted = (m_halted, StepResult.HALT) ∧ stepIter 3 m_halted = m_halted := by
  have h := step_idempotent_after_halt m_halted (by decide)
  exact ⟨h.1, (h.2 3).1⟩

/-- C8: the claim states that `"abba"` runs to the final string `"YES"` (true) and that
`"abab"` runs to the final string `"NO"`.  The code does not satisfy the second half:
the run on `"abab"` halts with decoded tape string `"NOb"`, not `"NO"`. -/
theorem concrete_scenarios_code_bug :
    (runSteps 30 m_abba).2 = StepResult.HALT ∧
    get_tape_content (runSteps 30 m_abba).1.tape = "YES" ∧
    (runSteps 30 m_abab).2 = StepResult.HALT ∧
    get_tape_content (runSteps 30 m_abab).1.tape = "NOb" ∧
    ("NOb" : String) ≠ "NO" := by
  refine ⟨by decide, by decide, by decide, by decide, by decide⟩

/-- C10: when `step` takes the `ERROR` branch (no rule for the current state and read
symbol), only the current state (set to the halt state) and the error message change:
the tape, the head position, the step count, the execution log and the stored input are
exactly as before the call. -/
theorem step_error_frame (m : TuringMachine) (h : m.current_state ≠ halt_state)
    (hgap : transitions m.current_state (tape_get m.tape m.head_position) = none) :
    (step m).1.tape = m.tape ∧
    (step m).1.head_position = m.head_position ∧
    (step m).1.step_count = m.step_count ∧
    (step m).1.execution_log = m.execution_log ∧
    (step m).1.original_input = m.original_input ∧
    (step m).1.current_state = halt_state ∧
    (step m).2 = StepResult.ERROR := by
  have hcm : Conf m m.current_state m.head_position (fun q => tape_get m.tape q)
      m.step_count := ⟨rfl, rfl, fun q => rfl, rfl⟩
  rw [step_error_eq hcm h hgap]
  exact ⟨rfl, rfl, rfl, rfl, rfl, rfl, rfl⟩

/-- Witness for `step_error_frame` at a machine in state `qn1` reading `b`. -/
theorem step_error_frame_witness :
    (step m_gap).1.tape = m_gap.tape ∧
    (step m_gap).1.head_position = m_gap.head_position ∧
    (step m_gap).1.step_count = m_gap.step_count ∧
    (step m_gap).2 = StepResult.ERROR := by
  have h := step_error_frame m_gap (by decide) (by decide)
  exact ⟨h.1, h.2.1, h.2.2.1, h.2.2.2.2.2.2⟩

/-! ### Decoded tape content determined by the non-blank support -/

theorem filterMap_if (L : List Int) (t : Tape) :
    (L.filterMap fun k => if tape_get t k ≠ blank_symbol then some (tape_get t k)
      else none) =
      (L.filter fun k => decide (tape_get t k ≠ blank_symbol)).map (tape_get t) := by
  induction L with
  | nil => rfl
  | cons a L ih =>
    rw [List.filterMap_cons, List.filter_cons]
    by_cases h : tape_get t a ≠ blank_symbol
    · rw [if_pos h, if_pos (by simpa using h), List.map_cons, ih]
    · rw [if_neg h, if_neg (by simpa using h)]
      exact ih

theorem get_tape_content_eq_of_support (t : Tape) (hnd : (t.map Prod.fst).Nodup)
    (L : List Int) (hsort : L.Sorted (· ≤ ·)) (hLnd : L.Nodup)
    (hsupp : ∀ k : Int, tape_get t k ≠ blank_symbol ↔ k ∈ L) :
    get_tape_content t = String.mk (L.map (tape_get t)) := by
  by_cases ht : t = []
  · subst ht
    have hL : L = [] := by
      rcases L with _ | ⟨a, L⟩
      · rfl
      · exfalso
        have := (hsupp a).mpr (by simp)
        simp [tape_get] at this
    rw [hL]
    rfl
  · rw [get_tape_content, if_neg ht, filterMap_if]
    have hnds : (List.insertionSort (· ≤ ·) (t.map Prod.fst)).Nodup :=
      (List.Perm.nodup_iff (List.perm_insertionSort (· ≤ ·) (t.map Prod.fst))).mpr hnd
    have hss : (List.insertionSort (· ≤ ·) (t.map Prod.fst)).filter
        (fun k => decide (tape_get t k ≠ blank_symbol)) = L := by
      apply List.eq_of_perm_of_sorted (r := (· ≤ ·))
      · rw [List.perm_ext_iff_of_nodup (hnds.filter _) hLnd]
        intro k
        rw [List.mem_filter]
        constructor
        · rintro ⟨-, hk⟩
          exact (hsupp k).mp (by simpa using hk)
        · intro hk
          have hne : tape_get t k ≠ blank_symbol := (hsupp k).mpr hk
          refine ⟨?_, by simpa using hne⟩
          exact (List.perm_insertionSort (· ≤ ·) (t.map Prod.fst)).mem_iff.mpr
            (mem_keys_of_get_ne t k hne)
      · exact (List.sorted_insertionSort (· ≤ ·) (t.map Prod.fst)).filter _
      · exact hsort
    rw [hss]

/-- C9: reading any position absent from the mapping yields the blank symbol, and
writing the blank symbol at a position is observationally the same as removing that
position from the mapping: reads agree at every position, and the decoded non-blank
content in ascending position order is identical. -/
theorem tape_blank_absent_equiv (t : Tape) (p : Int)
    (hnd : (t.map Prod.fst).Nodup) :
    (p ∉ t.map Prod.fst → tape_get t p = blank_symbol) ∧
    (∀ q : Int, tape_get (tape_set t p blank_symbol) q =
      tape_get (tape_eraseKey t p) q) ∧
    get_tape_content (tape_set t p blank_symbol) =
      get_tape_content (tape_eraseKey t p) := by
  have hpt : ∀ q : Int, tape_get (tape_set t p blank_symbol) q =
      tape_get (tape_eraseKey t p) q := by
    intro q
    rw [tape_get_set, tape_get_eraseKey]
  refine ⟨?_, hpt, ?_⟩
  · intro hmem
    by_contra hne
    exact hmem (mem_keys_of_get_ne t p hne)
  · have hndE : ((tape_eraseKey t p).map Prod.fst).Nodup :=
      hnd.sublist (keys_eraseKey_sublist t p)
    have hndS : ((tape_set t p blank_symbol).map Prod.fst).Nodup :=
      keys_tape_set_nodup t p blank_symbol hnd
    have hndsE : ((List.insertionSort (· ≤ ·)
        ((tape_eraseKey t p).map Prod.fst))).Nodup :=
      (List.Perm.nodup_iff (List.perm_insertionSort (· ≤ ·) _)).mpr hndE
    set L : List Int := (List.insertionSort (· ≤ ·)
      ((tape_eraseKey t p).map Prod.fst)).filter
      (fun k => decide (tape_get (tape_eraseKey t p) k ≠ blank_symbol)) with hLdef
    have hsort : L.Sorted (· ≤ ·) :=
      (List.sorted_insertionSort (· ≤ ·) _).filter _
    have hLnd : L.Nodup := hndsE.filter _
    have hsuppE : ∀ k : Int, tape_get (tape_eraseKey t p) k ≠ blank_symbol ↔ k ∈ L := by
      intro k
      rw [hLdef, List.mem_filter]
      constructor
      · intro hne
        refine ⟨?_, by simpa using hne⟩
        exact (List.perm_insertionSort (· ≤ ·) _).mem_iff.mpr
          (mem_keys_of_get_ne _ k hne)
      · rintro ⟨-, hk⟩
        simpa using hk
    have hsuppS : ∀ k : Int, tape_get (tape_set t p blank_symbol) k ≠ blank_symbol ↔
        k ∈ L := by
      intro k
      rw [hpt k]
      exact hsuppE k
    rw [get_tape_content_eq_of_support _ hndS L hsort hLnd hsuppS,
      get_tape_content_eq_of_support _ hndE L hsort hLnd hsuppE]
    congr 1
    exact List.map_congr_left (fun k _ => hpt k)

/-- Witness for `tape_blank_absent_equiv` at the tape holding `a` at 0 and `b` at 2,
with position 5 absent. -/
theorem tape_blank_absent_equiv_witness :
    tape_get ([((0 : Int), 'a'), ((2 : Int), 'b')] : Tape) 5 = blank_symbol ∧
    (∀ q : Int, tape_get (tape_set [((0 : Int), 'a'), ((2 : Int), 'b')] 5 blank_symbol) q =
      tape_get (tape_eraseKey [((0 : Int), 'a'), ((2 : Int), 'b')] 5) q) ∧
    get_tape_content (tape_set [((0 : Int), 'a'), ((2 : Int), 'b')] 5 blank_symbol) =
      get_tape_content (tape_eraseKey [((0 : Int), 'a'), ((2 : Int), 'b')] 5) := by
  have h := tape_blank_absent_equiv [((0 : Int), 'a'), ((2 : Int), 'b')] 5 (by decide)
  exact ⟨h.1 (by decide), h.2.1, h.2.2⟩
